import Mathlib

/-!
Verification of the SEBI-Circular-Indexer reference-resolution core.

Shallow embedding of the Python sources:
  * `circular_knowledge_graph.py`  — `CircularKnowledgeGraph.add_circular`,
    `PDFCircularExtractor.extract_circular_references` (self-reference filter).
  * `analyze_circular_references.py` — `KnowledgeGraphAnalyzer.load_graph`,
    `find_direct_references`, `_fuzzy_match_reference`, `find_indirect_references`.

Python `str` is modelled by `String` (ASCII data), Python `dict` by an
insertion-ordered association list with overwrite-in-place semantics
(`dictInsert` / `dictGet?`), Python `set` iteration by a duplicate-free
`List`, and `collections.deque` by a `List` used as a FIFO queue.
-/

namespace SEBI

/-- Python `dict` assignment `m[k] = v`: overwrite in place if the key is
present, otherwise append at the end (insertion order preserved). -/
def dictInsert {α : Type} (m : List (String × α)) (k : String) (v : α) :
    List (String × α) :=
  if m.any (fun p => p.1 == k) then
    m.map (fun p => if p.1 == k then (k, v) else p)
  else m ++ [(k, v)]

/-- Python `m.get(k)` / `k in m`: lookup in an association list.  Keys built
through `dictInsert` are unique, so the first hit is the binding. -/
def dictGet? {α : Type} (m : List (String × α)) (k : String) : Option α :=
  (m.find? (fun p => p.1 == k)).map (fun p => p.2)

/-- Python `m[k].append(v)` on a `defaultdict(list)`: append to the list bound
to `k`, creating the binding `k ↦ [v]` if absent. -/
def dictAppend (m : List (String × List String)) (k v : String) :
    List (String × List String) :=
  if m.any (fun p => p.1 == k) then
    m.map (fun p => if p.1 == k then (p.1, p.2 ++ [v]) else p)
  else m ++ [(k, [v])]

/-- Python `s.upper()` restricted to ASCII data. -/
def pyUpper (s : String) : String := String.mk (s.toList.map Char.toUpper)

/-- Python `s.replace(' ', '')`: drop every space character. -/
def removeSpaces (s : String) : String :=
  String.mk (s.toList.filter (fun c => c ≠ ' '))

/-- The normalization the code actually uses for matching, from
`_fuzzy_match_reference` (`analyze_circular_references.py` line 208) and
`CircularDatabase.search` (`circular_reference_extractor.py` line 55):
`ref.replace(' ', '').upper()`. -/
def fuzzyNormalize (s : String) : String := pyUpper (removeSpaces s)

/-- The spec's reference normalizer, stated for comparison with the code's
`fuzzyNormalize` (refinement check for the normalization claim): strip every
character that is not an ASCII letter or digit, then upper-case. -/
def specNormalize (s : String) : String :=
  pyUpper (String.mk (s.toList.filter (fun c => c.isAlphanum)))

/-- Python `a in b` on strings: substring containment. -/
def isSubstr (a b : String) : Bool := decide (a.toList <:+: b.toList)

/-- Python `s.split(sep)[0]` for a one-character separator: the text before
the first occurrence of `stop` (the whole string when `stop` is absent). -/
def takeBefore (stop : Char) (s : String) : String :=
  String.mk (s.toList.takeWhile (fun c => c ≠ stop))

/-- Python `s.strip()`: drop leading and trailing whitespace. -/
def pyStrip (s : String) : String :=
  String.mk
    (((s.toList.dropWhile Char.isWhitespace).reverse.dropWhile
      Char.isWhitespace).reverse)

/-- `current_circ_short` of the self-reference filter
(`circular_knowledge_graph.py` line 244): the document's own circular number
truncated at the first `'('` and the first `'-'`, then stripped; empty when
the circular number is empty. -/
def currentCircShort (circularNumber : String) : String :=
  if circularNumber = "" then ""
  else pyStrip (takeBefore '-' (takeBefore '(' circularNumber))

/-- The self-reference filter of `extract_circular_references`
(`circular_knowledge_graph.py` lines 242-252): a reference is kept unless
`current_circ_short` is nonempty and one of the two raw strings contains the
other.  The Python set of references is modelled by a duplicate-free list. -/
def selfFilterRefs (circularNumber : String) (references : List String) :
    List String :=
  let short := currentCircShort circularNumber
  references.filter (fun ref =>
    !(short != "" && (isSubstr short ref || isSubstr ref short)))

/-! ### The knowledge-graph builder (`circular_knowledge_graph.py`) -/

/-- A node of `CircularKnowledgeGraph.nodes` (the derived `filename` field
duplicates the key and is omitted). -/
structure KGNode where
  filename : String
  circular_no : String
  references : List String
  reference_count : Nat
deriving DecidableEq, Repr

/-- An edge of `CircularKnowledgeGraph.edges` (the constant
`type = "references"` field is omitted). -/
structure KGEdge where
  source : String
  source_circular_no : String
  target_reference : String
deriving DecidableEq, Repr

/-- `CircularKnowledgeGraph`: a dict of nodes keyed by filename plus a flat
edge list. -/
structure CircularKnowledgeGraph where
  nodes : List (String × KGNode)
  edges : List KGEdge
deriving DecidableEq, Repr

/-- `CircularKnowledgeGraph.add_circular` (lines 22-38): replace the node
bound to `filename` and append one edge per reference.  The Python reference
set is modelled by a duplicate-free list. -/
def add_circular (g : CircularKnowledgeGraph) (filename circular_no : String)
    (references : List String) : CircularKnowledgeGraph :=
  { nodes := dictInsert g.nodes filename
      ⟨filename, circular_no, references, references.length⟩,
    edges := g.edges ++ references.map
      (fun r => ⟨filename, circular_no, r⟩) }

/-- A run of the builder: fold `add_circular` over
`(filename, circular_no, references)` tuples, starting from the empty graph. -/
def build_graph (docs : List (String × String × List String)) :
    CircularKnowledgeGraph :=
  docs.foldl (fun g t => add_circular g t.1 t.2.1 t.2.2) ⟨[], []⟩

/-! ### The analyzer (`analyze_circular_references.py`) -/

/-- A node of the exported graph JSON as consumed by
`KnowledgeGraphAnalyzer.load_graph`.  `node.get('circular_no', '')` and
`node.get('references', [])` model an absent field by `""` / `[]`. -/
structure GNode where
  id : String
  circular_no : String
  references : List String
deriving DecidableEq, Repr

/-- An edge of the exported graph JSON (`source`, `target_reference`). -/
structure GEdge where
  source : String
  target_reference : String
deriving DecidableEq, Repr

/-- The state `KnowledgeGraphAnalyzer` builds in `load_graph` (lines 123-148):
the node dict, the reverse `reference_map` and the `circular_to_node` alias
index. -/
structure Analyzer where
  nodes : List (String × GNode)
  reference_map : List (String × List String)
  circular_to_node : List (String × String)
deriving DecidableEq, Repr

/-- `self.nodes = {node['id']: node for node in data['nodes']}`. -/
def buildNodesDict (ns : List GNode) : List (String × GNode) :=
  ns.foldl (fun m n => dictInsert m n.id n) []

/-- The `reference_map` loop of `load_graph`: for every edge, append the
source to the list bound to the target reference. -/
def buildReferenceMap (es : List GEdge) : List (String × List String) :=
  es.foldl (fun m e => dictAppend m e.target_reference e.source) []

/-- The `circular_to_node` loop of `load_graph`: map each nonempty stored
circular number to its node id (raw string key, last write wins). -/
def buildCircularToNode (nodes : List (String × GNode)) :
    List (String × String) :=
  nodes.foldl
    (fun m p => if p.2.circular_no ≠ "" then dictInsert m p.2.circular_no p.1
                else m) []

/-- `KnowledgeGraphAnalyzer.load_graph` on already-parsed JSON data. -/
def load_graph (ns : List GNode) (es : List GEdge) : Analyzer :=
  let nd := buildNodesDict ns
  ⟨nd, buildReferenceMap es, buildCircularToNode nd⟩

/-- The four values of the `type` field produced by
`find_direct_references`. -/
inductive RefType
  | in_graph
  | referenced_external
  | fuzzy_match
  | external
deriving DecidableEq, Repr

/-- The per-candidate result dict of `find_direct_references` (the `node` and
`message` fields are presentation-only and omitted; `node_id` identifies the
resolved node in the two `in_graph` branches). -/
structure Details where
  rtype : RefType
  node_id : Option String
  references : List String
  referenced_by : List String
  fuzzy_matches : List String
deriving DecidableEq, Repr

/-- `KnowledgeGraphAnalyzer._fuzzy_match_reference` (lines 206-216): collect
the ids of all nodes whose space-stripped upper-cased circular number contains
the space-stripped upper-cased candidate or vice versa. -/
def fuzzy_match_reference (a : Analyzer) (ref : String) : List String :=
  let rn := fuzzyNormalize ref
  (a.nodes.filter (fun p =>
    let cn := fuzzyNormalize p.2.circular_no
    isSubstr rn cn || isSubstr cn rn)).map (fun p => p.1)

/-- The body of the `find_direct_references` loop (lines 154-194) for one
candidate: exact node-id match, then raw `circular_to_node` match, then
`reference_map` membership, then fuzzy matching, else external. -/
def find_direct_one (a : Analyzer) (ref : String) : Details :=
  match dictGet? a.nodes ref with
  | some node => ⟨.in_graph, some ref, node.references, [], []⟩
  | none =>
    match dictGet? a.circular_to_node ref with
    | some node_id =>
      ⟨.in_graph, some node_id,
        (match dictGet? a.nodes node_id with
         | some n => n.references
         | none => []), [], []⟩
    | none =>
      match dictGet? a.reference_map ref with
      | some sources => ⟨.referenced_external, none, [], sources, []⟩
      | none =>
        let ms := fuzzy_match_reference a ref
        if ms ≠ [] then ⟨.fuzzy_match, none, [], [], ms⟩
        else ⟨.external, none, [], [], []⟩

/-- `KnowledgeGraphAnalyzer.find_direct_references` (lines 150-196): one dict
entry per candidate.  The Python candidate set is modelled by a
duplicate-free list. -/
def find_direct_references (a : Analyzer) (cands : List String) :
    List (String × Details) :=
  cands.foldl (fun acc ref => dictInsert acc ref (find_direct_one a ref)) []

/-! ### The traversal engine (`find_indirect_references`, lines 218-258) -/

/-- The mutable state of `find_indirect_references`: the
`indirect_by_level` defaultdict (a level key is present exactly when some
identifier was stored at it), the `visited` set (insertion-ordered list) and
the BFS deque. -/
structure BfsState where
  levels : List (Nat × List String)
  visited : List String
  queue : List (String × Nat)
deriving DecidableEq, Repr

/-- `indirect_by_level[l].add(x)`: append `x` to the set at level `l`,
creating the level key if absent.  Every insertion is guarded by the visited
check, so the stored lists stay duplicate-free. -/
def addLevel (levels : List (Nat × List String)) (l : Nat) (x : String) :
    List (Nat × List String) :=
  if levels.any (fun p => p.1 == l) then
    levels.map (fun p => if p.1 == l then (p.1, p.2 ++ [x]) else p)
  else levels ++ [(l, [x])]

/-- The inner reference loop shared by the seeding phase (`newLevel = 2`) and
the BFS body (`newLevel = level + 1`): for each reference not yet visited,
record it at `newLevel`, mark it visited, and enqueue it. -/
def expandRefs (newLevel : Nat) (refs : List String) (st : BfsState) :
    BfsState :=
  refs.foldl
    (fun st r =>
      if r ∈ st.visited then st
      else ⟨addLevel st.levels newLevel r, st.visited ++ [r],
            st.queue ++ [(r, newLevel)]⟩)
    st

/-- One iteration of the seeding loop of `find_indirect_references`
(lines 225-233): mark the direct-reference key visited
(`visited.add(ref)`); when the entry carries references
(`if details.get('references')`), feed them in at level 2. -/
def seedStep (st : BfsState) (p : String × Details) : BfsState :=
  let st1 : BfsState :=
    ⟨st.levels,
     if p.1 ∈ st.visited then st.visited else st.visited ++ [p.1],
     st.queue⟩
  if p.2.references ≠ [] then expandRefs 2 p.2.references st1 else st1

/-- The seeding loop of `find_indirect_references` (lines 225-233), iterating
over `direct_refs.items()` in insertion order. -/
def seedDirect (direct : List (String × Details)) : BfsState :=
  direct.foldl seedStep ⟨[], [], []⟩

/-- The node lookup inside the BFS loop (lines 244-248): by node id first,
then through `circular_to_node`. -/
def lookup_node_id (a : Analyzer) (ref : String) : Option String :=
  if (dictGet? a.nodes ref).isSome then some ref
  else dictGet? a.circular_to_node ref

/-- `self.nodes[node_id].get('references', [])`. -/
def node_references (a : Analyzer) (nid : String) : List String :=
  match dictGet? a.nodes nid with
  | some n => n.references
  | none => []

/-- All raw reference strings stored at nodes of the graph: everything the
BFS can ever enqueue comes from this finite set. -/
def pool (a : Analyzer) : Finset String :=
  (a.nodes.flatMap (fun p => p.2.references)).toFinset

/-- Loop variant of the BFS: queue length plus the number of pool elements
not yet visited.  Every iteration strictly decreases it. -/
def bfsMeasure (a : Analyzer) (st : BfsState) : Nat :=
  st.queue.length + ((pool a) \ st.visited.toFinset).card

/-- The `while queue:` loop of `find_indirect_references` (lines 236-256),
with an explicit iteration bound.  `bfsFuel_drains` below shows that any
fuel above `bfsMeasure` lets the loop run to completion (empty queue), so
the bounded form is extensionally the Python loop. -/
def bfsFuel (a : Analyzer) (maxDepth : Int) : Nat → BfsState → BfsState
  | 0, st => st
  | fuel + 1, st =>
    match st.queue with
    | [] => st
    | (cur, lvl) :: rest =>
      if (lvl : Int) ≥ maxDepth then
        bfsFuel a maxDepth fuel ⟨st.levels, st.visited, rest⟩
      else
        match lookup_node_id a cur with
        | none => bfsFuel a maxDepth fuel ⟨st.levels, st.visited, rest⟩
        | some nid =>
          bfsFuel a maxDepth fuel
            (expandRefs (lvl + 1) (node_references a nid)
              ⟨st.levels, st.visited, rest⟩)

/-- `KnowledgeGraphAnalyzer.find_indirect_references` (lines 218-258): seed
level 2 from the direct references, then run the BFS loop (the fuel
`bfsMeasure + 1` is sufficient by `bfsFuel_drains`). -/
def find_indirect_references (a : Analyzer)
    (direct : List (String × Details)) (maxDepth : Int) :
    List (Nat × List String) :=
  let st := seedDirect direct
  (bfsFuel a maxDepth (bfsMeasure a st + 1) st).levels

/-- Membership of an identifier at a level of the result. -/
def memLevel (levels : List (Nat × List String)) (l : Nat) (x : String) :
    Prop :=
  ∃ p ∈ levels, p.1 = l ∧ x ∈ p.2

instance (levels : List (Nat × List String)) (l : Nat) (x : String) :
    Decidable (memLevel levels l x) :=
  List.decidableBEx _ levels

/-! ### Association-list (Python dict) lemmas -/

theorem dictInsert_of_fresh {α : Type} {m : List (String × α)} {k : String}
    (v : α) (h : ∀ p ∈ m, p.1 ≠ k) : dictInsert m k v = m ++ [(k, v)] := by
  unfold dictInsert
  have : m.any (fun p => p.1 == k) = false := by
    simp only [List.any_eq_false]
    intro p hp
    simpa using h p hp
  simp [this]

theorem dictGet?_eq_none {α : Type} {m : List (String × α)} {k : String}
    (h : ∀ p ∈ m, p.1 ≠ k) : dictGet? m k = none := by
  unfold dictGet?
  have : m.find? (fun p => p.1 == k) = none := by
    simp only [List.find?_eq_none]
    intro p hp
    simpa using h p hp
  simp [this]

theorem dictGet?_append {α : Type} (m₁ m₂ : List (String × α)) (k : String) :
    dictGet? (m₁ ++ m₂) k =
      ((m₁.find? (fun p => p.1 == k)).or
        (m₂.find? (fun p => p.1 == k))).map (fun p => p.2) := by
  unfold dictGet?
  rw [List.find?_append]

theorem dictGet?_mem {α : Type} {m : List (String × α)} {k : String} {v : α}
    (h : dictGet? m k = some v) : (k, v) ∈ m := by
  unfold dictGet? at h
  rcases Option.map_eq_some'.mp h with ⟨p, hf, hv⟩
  have hm := List.mem_of_find?_eq_some hf
  have hk := List.find?_some hf
  have : p.1 = k := by simpa using hk
  have : p = (k, v) := by
    cases p
    simp_all
  rwa [this] at hm

/-! ### Level-map lemmas -/

theorem memLevel_addLevel (levels : List (Nat × List String)) (L : Nat)
    (x : String) (l : Nat) (y : String) :
    memLevel (addLevel levels L x) l y ↔
      memLevel levels l y ∨ (l = L ∧ y = x) := by
  unfold addLevel memLevel
  by_cases h : levels.any (fun p => p.1 == L)
  · simp only [h, if_true]
    constructor
    · rintro ⟨p, hp, hl, hy⟩
      rcases List.mem_map.mp hp with ⟨q, hq, hqe⟩
      by_cases hqL : q.1 = L
      · have hfq : (if q.1 == L then (q.1, q.2 ++ [x]) else q) =
            (q.1, q.2 ++ [x]) := by simp [hqL]
        rw [hfq] at hqe
        subst hqe
        rcases List.mem_append.mp hy with hy | hy
        · exact Or.inl ⟨q, hq, hl, hy⟩
        · right
          refine ⟨?_, by simpa using hy⟩
          omega
      · have hfq : (if q.1 == L then (q.1, q.2 ++ [x]) else q) = q := by
          simp [hqL]
        rw [hfq] at hqe
        subst hqe
        exact Or.inl ⟨q, hq, hl, hy⟩
    · rintro (⟨q, hq, hl, hy⟩ | ⟨hl, hy⟩)
      · by_cases hqL : q.1 = L
        · refine ⟨(q.1, q.2 ++ [x]), List.mem_map.mpr ⟨q, hq, by simp [hqL]⟩,
            hl, ?_⟩
          simp [hy]
        · exact ⟨q, List.mem_map.mpr ⟨q, hq, by simp [hqL]⟩, hl, hy⟩
      · rcases List.any_eq_true.mp h with ⟨q, hq, hqL⟩
        have hqL : q.1 = L := by simpa using hqL
        refine ⟨(q.1, q.2 ++ [x]), List.mem_map.mpr ⟨q, hq, by simp [hqL]⟩,
          by omega, by simp [hy]⟩
  · simp only [h]
    rw [if_neg (by simp [h])]
    constructor
    · rintro ⟨p, hp, hl, hy⟩
      rcases List.mem_append.mp hp with hp | hp
      · exact Or.inl ⟨p, hp, hl, hy⟩
      · have : p = (L, [x]) := by simpa using hp
        subst this
        right
        constructor
        · omega
        · simpa using hy
    · rintro (⟨q, hq, hl, hy⟩ | ⟨hl, hy⟩)
      · exact ⟨q, List.mem_append_left _ hq, hl, hy⟩
      · exact ⟨(L, [x]), List.mem_append_right _ (by simp), by omega,
          by simp [hy]⟩

/-- Every identifier stored at some level has been marked visited. -/
def LevelsVisited (st : BfsState) : Prop :=
  ∀ l x, memLevel st.levels l x → x ∈ st.visited

/-- No identifier is stored at two different levels. -/
def LevelsDisjoint (st : BfsState) : Prop :=
  ∀ l₁ l₂ x, memLevel st.levels l₁ x → memLevel st.levels l₂ x → l₁ = l₂

/-! ### `expandRefs` lemmas -/

theorem expandRefs_visited_mono (L : Nat) (refs : List String) :
    ∀ st : BfsState, ∀ y ∈ st.visited, y ∈ (expandRefs L refs st).visited := by
  induction refs with
  | nil => intro st y hy; simpa [expandRefs] using hy
  | cons r rs ih =>
    intro st y hy
    show y ∈ (expandRefs L rs _).visited
    by_cases hr : r ∈ st.visited
    · rw [expandRefs]
      simp only [List.foldl_cons, if_pos hr]
      exact ih st y hy
    · rw [expandRefs]
      simp only [List.foldl_cons, if_neg hr]
      exact ih _ y (List.mem_append_left _ hy)

theorem expandRefs_queue_mono (L : Nat) (refs : List String) :
    ∀ st : BfsState, ∀ p ∈ st.queue, p ∈ (expandRefs L refs st).queue := by
  induction refs with
  | nil => intro st p hp; simpa [expandRefs] using hp
  | cons r rs ih =>
    intro st p hp
    by_cases hr : r ∈ st.visited
    · rw [expandRefs]
      simp only [List.foldl_cons, if_pos hr]
      exact ih st p hp
    · rw [expandRefs]
      simp only [List.foldl_cons, if_neg hr]
      exact ih _ p (List.mem_append_left _ hp)

theorem expandRefs_memLevel_mono (L : Nat) (refs : List String) :
    ∀ st : BfsState, ∀ l y, memLevel st.levels l y →
      memLevel (expandRefs L refs st).levels l y := by
  induction refs with
  | nil => intro st l y hy; simpa [expandRefs] using hy
  | cons r rs ih =>
    intro st l y hy
    by_cases hr : r ∈ st.visited
    · rw [expandRefs]
      simp only [List.foldl_cons, if_pos hr]
      exact ih st l y hy
    · rw [expandRefs]
      simp only [List.foldl_cons, if_neg hr]
      exact ih _ l y ((memLevel_addLevel _ _ _ _ _).mpr (Or.inl hy))

theorem expandRefs_memLevel_or (L : Nat) (refs : List String) :
    ∀ st : BfsState, ∀ l y, memLevel (expandRefs L refs st).levels l y →
      memLevel st.levels l y ∨ l = L := by
  induction refs with
  | nil => intro st l y hy; left; simpa [expandRefs] using hy
  | cons r rs ih =>
    intro st l y hy
    by_cases hr : r ∈ st.visited
    · rw [expandRefs] at hy
      simp only [List.foldl_cons, if_pos hr] at hy
      exact ih st l y hy
    · rw [expandRefs] at hy
      simp only [List.foldl_cons, if_neg hr] at hy
      rcases ih _ l y hy with h | h
      · rcases (memLevel_addLevel _ _ _ _ _).mp h with h | ⟨hl, _⟩
        · exact Or.inl h
        · exact Or.inr hl
      · exact Or.inr h

theorem expandRefs_memLevel_of_visited (L : Nat) (refs : List String) :
    ∀ st : BfsState, ∀ y ∈ st.visited, ∀ l,
      memLevel (expandRefs L refs st).levels l y → memLevel st.levels l y := by
  induction refs with
  | nil => intro st y _ l hy; simpa [expandRefs] using hy
  | cons r rs ih =>
    intro st y hyv l hy
    by_cases hr : r ∈ st.visited
    · rw [expandRefs] at hy
      simp only [List.foldl_cons, if_pos hr] at hy
      exact ih st y hyv l hy
    · rw [expandRefs] at hy
      simp only [List.foldl_cons, if_neg hr] at hy
      have := ih _ y (List.mem_append_left _ hyv) l hy
      rcases (memLevel_addLevel _ _ _ _ _).mp this with h | ⟨_, hyx⟩
      · exact h
      · exact absurd (hyx ▸ hyv) hr

theorem expandRefs_LV_LD (L : Nat) (refs : List String) :
    ∀ st : BfsState, LevelsVisited st → LevelsDisjoint st →
      LevelsVisited (expandRefs L refs st) ∧
        LevelsDisjoint (expandRefs L refs st) := by
  induction refs with
  | nil => intro st hLV hLD; simpa [expandRefs] using ⟨hLV, hLD⟩
  | cons r rs ih =>
    intro st hLV hLD
    by_cases hr : r ∈ st.visited
    · rw [expandRefs]
      simp only [List.foldl_cons, if_pos hr]
      exact ih st hLV hLD
    · rw [expandRefs]
      simp only [List.foldl_cons, if_neg hr]
      refine ih _ ?_ ?_
      · intro l y hy
        rcases (memLevel_addLevel _ _ _ _ _).mp hy with h | ⟨_, hyx⟩
        · exact List.mem_append_left _ (hLV l y h)
        · simp [hyx]
      · intro l₁ l₂ y h₁ h₂
        rcases (memLevel_addLevel _ _ _ _ _).mp h₁ with h₁ | ⟨hl₁, hy₁⟩ <;>
          rcases (memLevel_addLevel _ _ _ _ _).mp h₂ with h₂ | ⟨hl₂, hy₂⟩
        · exact hLD l₁ l₂ y h₁ h₂
        · exact absurd (hy₂ ▸ hLV l₁ y h₁) hr
        · exact absurd (hy₁ ▸ hLV l₂ y h₂) hr
        · omega

theorem expandRefs_queue_or (L : Nat) (refs : List String) :
    ∀ st : BfsState, ∀ p ∈ (expandRefs L refs st).queue,
      p ∈ st.queue ∨ p.2 = L := by
  induction refs with
  | nil => intro st p hp; left; simpa [expandRefs] using hp
  | cons r rs ih =>
    intro st p hp
    by_cases hr : r ∈ st.visited
    · rw [expandRefs] at hp
      simp only [List.foldl_cons, if_pos hr] at hp
      exact ih st p hp
    · rw [expandRefs] at hp
      simp only [List.foldl_cons, if_neg hr] at hp
      rcases ih _ p hp with h | h
      · rcases List.mem_append.mp h with h | h
        · exact Or.inl h
        · right
          have : p = (r, L) := by simpa using h
          simp [this]
      · exact Or.inr h

/-! ### Measure lemmas: each BFS iteration strictly shrinks `bfsMeasure` -/

theorem expandRefs_measure (a : Analyzer) (L : Nat) :
    ∀ (refs : List String) (st : BfsState), (∀ r ∈ refs, r ∈ pool a) →
      bfsMeasure a (expandRefs L refs st) ≤ bfsMeasure a st := by
  intro refs
  induction refs with
  | nil => intro st _; simp [expandRefs]
  | cons r rs ih =>
    intro st hrefs
    have hrp : r ∈ pool a := hrefs r (by simp)
    have hrs : ∀ x ∈ rs, x ∈ pool a := fun x hx => hrefs x (by simp [hx])
    by_cases hr : r ∈ st.visited
    · rw [expandRefs]
      simp only [List.foldl_cons, if_pos hr]
      exact ih st hrs
    · rw [expandRefs]
      simp only [List.foldl_cons, if_neg hr]
      refine le_trans (ih _ hrs) ?_
      show bfsMeasure a ⟨_, st.visited ++ [r], st.queue ++ [(r, L)]⟩ ≤
        bfsMeasure a st
      unfold bfsMeasure
      have hvt : (st.visited ++ [r]).toFinset =
          insert r st.visited.toFinset := by
        simp [List.toFinset_append, Finset.insert_eq, Finset.union_comm]
      have hrm : r ∈ pool a \ st.visited.toFinset := by
        rw [Finset.mem_sdiff, List.mem_toFinset]
        exact ⟨hrp, hr⟩
      have hpos : 1 ≤ (pool a \ st.visited.toFinset).card :=
        Finset.card_pos.mpr ⟨r, hrm⟩
      rw [hvt, Finset.sdiff_insert, Finset.card_erase_of_mem hrm]
      simp only [List.length_append, List.length_cons, List.length_nil]
      omega

theorem node_references_subset_pool (a : Analyzer) (nid : String) :
    ∀ r ∈ node_references a nid, r ∈ pool a := by
  intro r hr
  unfold node_references at hr
  cases h : dictGet? a.nodes nid with
  | none => rw [h] at hr; simp at hr
  | some n =>
    rw [h] at hr
    have hm := dictGet?_mem h
    unfold pool
    rw [List.mem_toFinset, List.mem_flatMap]
    exact ⟨(nid, n), hm, hr⟩

/-- The fuel `bfsMeasure + 1` is enough: the loop always runs until the queue
is empty.  This is the termination statement for the traversal engine. -/
theorem bfsFuel_drains (a : Analyzer) (d : Int) :
    ∀ (fuel : Nat) (st : BfsState), bfsMeasure a st < fuel →
      (bfsFuel a d fuel st).queue = [] := by
  intro fuel
  induction fuel with
  | zero => intro st h; omega
  | succ f ih =>
    intro st h
    obtain ⟨lv, vis, q⟩ := st
    cases q with
    | nil => simp [bfsFuel]
    | cons p rest =>
      obtain ⟨cur, lvl⟩ := p
      have hmeas : bfsMeasure a ⟨lv, vis, rest⟩ < f := by
        unfold bfsMeasure at h ⊢
        dsimp only at h ⊢
        simp only [List.length_cons] at h
        omega
      rw [bfsFuel]
      by_cases hge : (lvl : Int) ≥ d
      · simp only [if_pos hge]
        exact ih _ hmeas
      · simp only [if_neg hge]
        cases hn : lookup_node_id a cur with
        | none => exact ih _ hmeas
        | some nid =>
          refine ih _ (lt_of_le_of_lt ?_ hmeas)
          exact expandRefs_measure a _ _ _
            (node_references_subset_pool a nid)

/-! ### Seeding-phase lemmas -/

theorem seedStep_visited_mono (st : BfsState) (p : String × Details) :
    ∀ y ∈ st.visited, y ∈ (seedStep st p).visited := by
  intro y hy
  unfold seedStep
  by_cases hne : p.2.references ≠ []
  · simp only [if_pos hne]
    refine expandRefs_visited_mono _ _ _ y ?_
    by_cases hk : p.1 ∈ st.visited <;> simp [hk, hy]
  · simp only [if_neg hne]
    by_cases hk : p.1 ∈ st.visited <;> simp [hk, hy]

theorem seedStep_key_visited (st : BfsState) (p : String × Details) :
    p.1 ∈ (seedStep st p).visited := by
  unfold seedStep
  by_cases hne : p.2.references ≠ []
  · simp only [if_pos hne]
    refine expandRefs_visited_mono _ _ _ p.1 ?_
    by_cases hk : p.1 ∈ st.visited <;> simp [hk]
  · simp only [if_neg hne]
    by_cases hk : p.1 ∈ st.visited <;> simp [hk]

theorem seedStep_levels_or (st : BfsState) (p : String × Details) :
    ∀ l y, memLevel (seedStep st p).levels l y →
      memLevel st.levels l y ∨ l = 2 := by
  intro l y hy
  unfold seedStep at hy
  by_cases hne : p.2.references ≠ []
  · simp only [if_pos hne] at hy
    exact expandRefs_memLevel_or 2 p.2.references
      ⟨st.levels,
       if p.1 ∈ st.visited then st.visited else st.visited ++ [p.1],
       st.queue⟩ l y hy
  · simp only [if_neg hne] at hy
    exact Or.inl hy

theorem seedStep_LV (st : BfsState) (p : String × Details)
    (hLV : LevelsVisited st) (hA2 : ∀ l x, memLevel st.levels l x → l = 2) :
    LevelsVisited (seedStep st p) := by
  unfold seedStep
  by_cases hne : p.2.references ≠ []
  · simp only [if_pos hne]
    have hLV1 : LevelsVisited ⟨st.levels,
        if p.1 ∈ st.visited then st.visited else st.visited ++ [p.1],
        st.queue⟩ := by
      intro l x hx
      have := hLV l x hx
      by_cases hk : p.1 ∈ st.visited <;> simp [hk, this]
    have hLD1 : LevelsDisjoint ⟨st.levels,
        if p.1 ∈ st.visited then st.visited else st.visited ++ [p.1],
        st.queue⟩ := by
      intro l₁ l₂ x h₁ h₂
      have := hA2 l₁ x h₁
      have := hA2 l₂ x h₂
      omega
    exact (expandRefs_LV_LD _ _ _ hLV1 hLD1).1
  · simp only [if_neg hne]
    intro l x hx
    have := hLV l x hx
    by_cases hk : p.1 ∈ st.visited <;> simp [hk, this]

theorem seedStep_queue_or (st : BfsState) (p : String × Details) :
    ∀ q ∈ (seedStep st p).queue, q ∈ st.queue ∨ q.2 = 2 := by
  intro q hq
  unfold seedStep at hq
  by_cases hne : p.2.references ≠ []
  · simp only [if_pos hne] at hq
    exact expandRefs_queue_or 2 p.2.references
      ⟨st.levels,
       if p.1 ∈ st.visited then st.visited else st.visited ++ [p.1],
       st.queue⟩ q hq
  · simp only [if_neg hne] at hq
    exact Or.inl hq

theorem seedFold_visited_mono :
    ∀ (direct : List (String × Details)) (st : BfsState),
      ∀ y ∈ st.visited, y ∈ (direct.foldl seedStep st).visited := by
  intro direct
  induction direct with
  | nil => intro st y hy; simpa using hy
  | cons p rest ih =>
    intro st y hy
    simpa using ih (seedStep st p) y (seedStep_visited_mono st p y hy)

theorem seedFold_inv :
    ∀ (direct : List (String × Details)) (st : BfsState),
      (∀ l x, memLevel st.levels l x → l = 2) → LevelsVisited st →
      (∀ l x, memLevel (direct.foldl seedStep st).levels l x → l = 2) ∧
        LevelsVisited (direct.foldl seedStep st) := by
  intro direct
  induction direct with
  | nil => intro st h1 h2; simpa using ⟨h1, h2⟩
  | cons p rest ih =>
    intro st h1 h2
    refine ih (seedStep st p) ?_ (seedStep_LV st p h2 h1)
    intro l x hx
    rcases seedStep_levels_or st p l x hx with h | h
    · exact h1 l x h
    · exact h

theorem seedFold_queue2 :
    ∀ (direct : List (String × Details)) (st : BfsState),
      (∀ q ∈ st.queue, q.2 = 2) →
      ∀ q ∈ (direct.foldl seedStep st).queue, q.2 = 2 := by
  intro direct
  induction direct with
  | nil => intro st h q hq; exact h q (by simpa using hq)
  | cons p rest ih =>
    intro st h q hq
    refine ih (seedStep st p) ?_ q (by simpa using hq)
    intro q₁ hq₁
    rcases seedStep_queue_or st p q₁ hq₁ with h₁ | h₁
    · exact h q₁ h₁
    · exact h₁

theorem seedDirect_keys_visited :
    ∀ (direct : List (String × Details)), ∀ p ∈ direct,
      p.1 ∈ (seedDirect direct).visited := by
  have main : ∀ (direct : List (String × Details)) (st : BfsState),
      ∀ p ∈ direct, p.1 ∈ (direct.foldl seedStep st).visited := by
    intro direct
    induction direct with
    | nil => intro st p hp; simp at hp
    | cons q rest ih =>
      intro st p hp
      rcases List.mem_cons.mp hp with hp | hp
      · subst hp
        simpa using seedFold_visited_mono rest (seedStep st p) p.1
          (seedStep_key_visited st p)
      · simpa using ih (seedStep st q) p hp
  intro direct p hp
  exact main direct ⟨[], [], []⟩ p hp

theorem seedDirect_inv (direct : List (String × Details)) :
    (∀ l x, memLevel (seedDirect direct).levels l x → l = 2) ∧
      LevelsVisited (seedDirect direct) := by
  refine seedFold_inv direct ⟨[], [], []⟩ ?_ ?_
  · intro l x hx
    rcases hx with ⟨p, hp, _⟩
    simp at hp
  · intro l x hx
    rcases hx with ⟨p, hp, _⟩
    simp at hp

theorem seedDirect_queue2 (direct : List (String × Details)) :
    ∀ q ∈ (seedDirect direct).queue, q.2 = 2 := by
  refine seedFold_queue2 direct ⟨[], [], []⟩ ?_
  intro q hq
  simp at hq

/-! ### BFS-loop invariant preservation -/

theorem bfsFuel_inv (a : Analyzer) (d : Int) (K : List String) :
    ∀ (fuel : Nat) (st : BfsState), LevelsVisited st → LevelsDisjoint st →
      (∀ k ∈ K, k ∈ st.visited) →
      (∀ k ∈ K, ∀ l, memLevel st.levels l k → l = 2) →
      LevelsVisited (bfsFuel a d fuel st) ∧
        LevelsDisjoint (bfsFuel a d fuel st) ∧
        (∀ k ∈ K, k ∈ (bfsFuel a d fuel st).visited) ∧
        (∀ k ∈ K, ∀ l, memLevel (bfsFuel a d fuel st).levels l k → l = 2) := by
  intro fuel
  induction fuel with
  | zero =>
    intro st h1 h2 h3 h4
    simpa [bfsFuel] using ⟨h1, h2, h3, h4⟩
  | succ f ih =>
    intro st h1 h2 h3 h4
    obtain ⟨lv, vis, q⟩ := st
    cases q with
    | nil => simpa [bfsFuel] using ⟨h1, h2, h3, h4⟩
    | cons p rest =>
      obtain ⟨cur, lvl⟩ := p
      simp only [bfsFuel]
      by_cases hge : (lvl : Int) ≥ d
      · rw [if_pos hge]
        exact ih ⟨lv, vis, rest⟩ h1 h2 h3 h4
      · rw [if_neg hge]
        cases hn : lookup_node_id a cur with
        | none => exact ih ⟨lv, vis, rest⟩ h1 h2 h3 h4
        | some nid =>
          have hLVLD := expandRefs_LV_LD (lvl + 1) (node_references a nid)
            ⟨lv, vis, rest⟩ h1 h2
          refine ih _ hLVLD.1 hLVLD.2 ?_ ?_
          · intro k hk
            exact expandRefs_visited_mono _ _ ⟨lv, vis, rest⟩ k (h3 k hk)
          · intro k hk l hl
            exact h4 k hk l (expandRefs_memLevel_of_visited _ _
              ⟨lv, vis, rest⟩ k (h3 k hk) l hl)

/-- When every queued item already sits at level ≥ 2 and `maxDepth ≤ 2`,
every BFS iteration takes the `level >= max_depth: continue` branch: the loop
only drains the queue and changes nothing else. -/
theorem bfsFuel_skip (a : Analyzer) {d : Int} (hd2 : d ≤ 2) :
    ∀ (q : List (String × Nat)) (fuel : Nat) (lv : List (Nat × List String))
      (vis : List String),
      (∀ p ∈ q, 2 ≤ p.2) → q.length < fuel →
      bfsFuel a d fuel ⟨lv, vis, q⟩ = ⟨lv, vis, []⟩ := by
  intro q
  induction q with
  | nil =>
    intro fuel lv vis _ hf
    cases fuel with
    | zero => omega
    | succ f => simp [bfsFuel]
  | cons p rest ih =>
    intro fuel lv vis hq hf
    obtain ⟨cur, lvl⟩ := p
    cases fuel with
    | zero => simp at hf
    | succ f =>
      have h2 : 2 ≤ lvl := by simpa using hq (cur, lvl) (by simp)
      have hge : (lvl : Int) ≥ d := by omega
      simp only [bfsFuel]
      rw [if_pos hge]
      refine ih f lv vis ?_ ?_
      · intro p hp
        exact hq p (by simp [hp])
      · simp only [List.length_cons] at hf
        omega

theorem bfsFuel_skip_state (a : Analyzer) {d : Int} (hd2 : d ≤ 2)
    (st : BfsState) (hq : ∀ p ∈ st.queue, 2 ≤ p.2) (fuel : Nat)
    (hf : st.queue.length < fuel) :
    bfsFuel a d fuel st = ⟨st.levels, st.visited, []⟩ := by
  obtain ⟨lv, vis, q⟩ := st
  exact bfsFuel_skip a hd2 q fuel lv vis hq hf

/-- With `maxDepth ≤ 2` the traversal returns exactly what the seeding phase
put at level 2. -/
theorem find_indirect_shallow (a : Analyzer)
    (direct : List (String × Details)) {d : Int} (hd2 : d ≤ 2) :
    find_indirect_references a direct d = (seedDirect direct).levels := by
  have hq : ∀ p ∈ (seedDirect direct).queue, 2 ≤ p.2 := by
    intro p hp
    have := seedDirect_queue2 direct p hp
    omega
  have hf : (seedDirect direct).queue.length <
      bfsMeasure a (seedDirect direct) + 1 := by
    unfold bfsMeasure
    omega
  show (bfsFuel a d (bfsMeasure a (seedDirect direct) + 1)
    (seedDirect direct)).levels = (seedDirect direct).levels
  rw [bfsFuel_skip_state a hd2 (seedDirect direct) hq _ hf]

/-- The two structural invariants of the traversal result: levels are
pairwise disjoint on raw identifiers, and a direct-reference key can occur
at level 2 only. -/
theorem find_indirect_inv (a : Analyzer) (direct : List (String × Details))
    (d : Int) :
    (∀ l₁ l₂ x, memLevel (find_indirect_references a direct d) l₁ x →
       memLevel (find_indirect_references a direct d) l₂ x → l₁ = l₂) ∧
      (∀ p ∈ direct, ∀ l,
        memLevel (find_indirect_references a direct d) l p.1 → l = 2) := by
  have hseed := seedDirect_inv direct
  have hLD : LevelsDisjoint (seedDirect direct) := by
    intro l₁ l₂ x h₁ h₂
    have e₁ := hseed.1 l₁ x h₁
    have e₂ := hseed.1 l₂ x h₂
    omega
  have hK : ∀ k ∈ direct.map (fun p => p.1), k ∈ (seedDirect direct).visited := by
    intro k hk
    rcases List.mem_map.mp hk with ⟨p, hp, hpk⟩
    exact hpk ▸ seedDirect_keys_visited direct p hp
  have hK2 : ∀ k ∈ direct.map (fun p => p.1), ∀ l,
      memLevel (seedDirect direct).levels l k → l = 2 := by
    intro k _ l hl
    exact hseed.1 l k hl
  have hmain := bfsFuel_inv a d (direct.map (fun p => p.1))
    (bfsMeasure a (seedDirect direct) + 1) (seedDirect direct)
    hseed.2 hLD hK hK2
  constructor
  · intro l₁ l₂ x h₁ h₂
    exact hmain.2.1 l₁ l₂ x h₁ h₂
  · intro p hp l hl
    exact hmain.2.2.2 p.1 (List.mem_map.mpr ⟨p, hp, rfl⟩) l hl

/-! ### Fresh-key dict lemmas -/

theorem find?_keys_none {α : Type} {m : List (String × α)} {k : String}
    (h : ∀ p ∈ m, p.1 ≠ k) : m.find? (fun p => p.1 == k) = none := by
  rw [List.find?_eq_none]
  intro p hp
  simpa using h p hp

theorem keys_ne_of_dictGet?_none {α : Type} {m : List (String × α)}
    {k : String} (h : dictGet? m k = none) : ∀ p ∈ m, p.1 ≠ k := by
  intro p hp he
  unfold dictGet? at h
  rw [Option.map_eq_none'] at h
  rw [List.find?_eq_none] at h
  exact h p hp (by simpa using he)

theorem dictGet?_insert_fresh_self {α : Type} {m : List (String × α)}
    {k : String} (v : α) (h : ∀ p ∈ m, p.1 ≠ k) :
    dictGet? (dictInsert m k v) k = some v := by
  rw [dictInsert_of_fresh v h]
  unfold dictGet?
  rw [List.find?_append, find?_keys_none h]
  simp

theorem dictGet?_insert_fresh_other {α : Type} {m : List (String × α)}
    {k : String} (v : α) (h : ∀ p ∈ m, p.1 ≠ k) {j : String} (hj : j ≠ k) :
    dictGet? (dictInsert m k v) j = dictGet? m j := by
  rw [dictInsert_of_fresh v h]
  unfold dictGet?
  rw [List.find?_append]
  have : [(k, v)].find? (fun p => p.1 == j) = none := by
    simp [Ne.symm hj]
  rw [this]
  cases m.find? (fun p => p.1 == j) <;> simp

theorem dictInsert_mem {α : Type} {m : List (String × α)} {k : String}
    {v : α} : ∀ p ∈ dictInsert m k v, p ∈ m ∨ p = (k, v) := by
  intro p hp
  unfold dictInsert at hp
  by_cases h : m.any (fun q => q.1 == k)
  · rw [if_pos h] at hp
    rcases List.mem_map.mp hp with ⟨q, hq, hqe⟩
    by_cases hqk : q.1 = k
    · right
      rw [← hqe]
      simp [hqk]
    · left
      rw [← hqe]
      simpa [hqk] using hq
  · rw [if_neg h] at hp
    rcases List.mem_append.mp hp with h₁ | h₁
    · exact Or.inl h₁
    · right
      simpa using h₁

/-! ### Builder lemmas (for the edge-regeneration claim) -/

/-- Every stored node's outgoing edges, in order, are exactly its reference
list. -/
def EdgesMatch (g : CircularKnowledgeGraph) : Prop :=
  ∀ f n, dictGet? g.nodes f = some n →
    (g.edges.filter (fun e => e.source == f)).map
      (fun e => e.target_reference) = n.references

/-- Every edge's source is a key of the node dict. -/
def EdgeSources (g : CircularKnowledgeGraph) : Prop :=
  ∀ e ∈ g.edges, (dictGet? g.nodes e.source).isSome = true

theorem add_circular_inv (g : CircularKnowledgeGraph)
    (f c : String) (refs : List String)
    (hfresh : dictGet? g.nodes f = none) (hE : EdgesMatch g)
    (hS : EdgeSources g) :
    EdgesMatch (add_circular g f c refs) ∧
      EdgeSources (add_circular g f c refs) := by
  have hne := keys_ne_of_dictGet?_none hfresh
  have hnew_src : ∀ e ∈ refs.map
      (fun r => (⟨f, c, r⟩ : KGEdge)), e.source = f := by
    intro e he
    rcases List.mem_map.mp he with ⟨r, _, hr⟩
    rw [← hr]
  have hold_src : ∀ e ∈ g.edges, e.source ≠ f := by
    intro e he hef
    have := hS e he
    rw [hef, hfresh] at this
    simp at this
  constructor
  · intro f' n hn
    show ((g.edges ++ refs.map (fun r => (⟨f, c, r⟩ : KGEdge))).filter
      (fun e => e.source == f')).map (fun e => e.target_reference) =
      n.references
    rw [List.filter_append, List.map_append]
    by_cases hf : f' = f
    · subst hf
      have hn' : n = ⟨f', c, refs, refs.length⟩ := by
        have := dictGet?_insert_fresh_self
          (⟨f', c, refs, refs.length⟩ : KGNode) hne
        have heq : dictGet? (add_circular g f' c refs).nodes f' =
            some (⟨f', c, refs, refs.length⟩ : KGNode) := this
        rw [hn] at heq
        exact Option.some_inj.mp heq
      have h₁ : g.edges.filter (fun e => e.source == f') = [] := by
        rw [List.filter_eq_nil_iff]
        intro e he
        simpa using hold_src e he
      have h₂ : (refs.map (fun r => (⟨f', c, r⟩ : KGEdge))).filter
          (fun e => e.source == f') =
          refs.map (fun r => (⟨f', c, r⟩ : KGEdge)) := by
        rw [List.filter_eq_self]
        intro e he
        simpa using hnew_src e he
      rw [h₁, h₂, hn']
      simp [List.map_map, Function.comp_def]
    · have hn' : dictGet? g.nodes f' = some n := by
        have := dictGet?_insert_fresh_other
          (⟨f, c, refs, refs.length⟩ : KGNode) hne hf
        rw [← this]
        exact hn
      have h₂ : (refs.map (fun r => (⟨f, c, r⟩ : KGEdge))).filter
          (fun e => e.source == f') = [] := by
        rw [List.filter_eq_nil_iff]
        intro e he
        have := hnew_src e he
        simp [this, hf]
        intro hc
        exact hf hc.symm
      rw [h₂, hE f' n hn']
      simp
  · intro e he
    simp only [add_circular] at he ⊢
    rcases List.mem_append.mp he with h₁ | h₁
    · have hsne : e.source ≠ f := hold_src e h₁
      rw [dictGet?_insert_fresh_other _ hne hsne]
      exact hS e h₁
    · have := hnew_src e h₁
      rw [this, dictGet?_insert_fresh_self _ hne]
      rfl

theorem build_fold_inv :
    ∀ (docs : List (String × String × List String))
      (g : CircularKnowledgeGraph),
      (docs.map (fun t => t.1)).Nodup →
      (∀ t ∈ docs, dictGet? g.nodes t.1 = none) →
      EdgesMatch g → EdgeSources g →
      EdgesMatch (docs.foldl (fun g t => add_circular g t.1 t.2.1 t.2.2) g) := by
  intro docs
  induction docs with
  | nil =>
    intro g _ _ hE _
    simpa using hE
  | cons t rest ih =>
    intro g hnod hfresh hE hS
    simp only [List.foldl_cons]
    have hfg : dictGet? g.nodes t.1 = none := hfresh t (by simp)
    have hinv := add_circular_inv g t.1 t.2.1 t.2.2 hfg hE hS
    have hnod' : t.1 ∉ rest.map (fun t => t.1) ∧
        (rest.map (fun t => t.1)).Nodup := by
      rw [List.map_cons, List.nodup_cons] at hnod
      exact hnod
    refine ih (add_circular g t.1 t.2.1 t.2.2) hnod'.2 ?_ hinv.1 hinv.2
    intro t' ht'
    have hne : t'.1 ≠ t.1 := by
      intro he
      exact hnod'.1 (List.mem_map.mpr ⟨t', ht', he⟩)
    simp only [add_circular]
    rw [dictGet?_insert_fresh_other _ (keys_ne_of_dictGet?_none hfg) hne]
    exact hfresh t' (by simp [ht'])

theorem build_graph_edges_match (docs : List (String × String × List String))
    (hnod : (docs.map (fun t => t.1)).Nodup) : EdgesMatch (build_graph docs) := by
  refine build_fold_inv docs ⟨[], []⟩ hnod ?_ ?_ ?_
  · intro t _
    rfl
  · intro f n hn
    simp [dictGet?] at hn
  · intro e he
    simp at he

/-- One edge per (source, target) pair and per reference entry: the filtered
edge count equals the multiplicity in the node's reference list. -/
theorem edges_count_of_map_eq {edges : List KGEdge} {f : String}
    {refs : List String}
    (h : (edges.filter (fun e => e.source == f)).map
      (fun e => e.target_reference) = refs) (r : String) :
    (edges.filter
      (fun e => e.source == f && e.target_reference == r)).length
      = refs.count r := by
  have h₁ : edges.filter
      (fun e => e.source == f && e.target_reference == r)
      = (edges.filter (fun e => e.source == f)).filter
        (fun e => e.target_reference == r) := by
    rw [List.filter_filter]
    refine List.filter_congr ?_
    intro e _
    exact (Bool.and_comm _ _).symm
  rw [← h, h₁, ← List.countP_eq_length_filter]
  rw [List.count_eq_countP]
  rw [List.countP_map]
  rfl

/-! ### Resolver lemmas -/

theorem find_direct_one_rtype_cases (a : Analyzer) (r : String) :
    (find_direct_one a r).rtype = RefType.in_graph ∨
      (find_direct_one a r).rtype = RefType.referenced_external ∨
      (find_direct_one a r).rtype = RefType.fuzzy_match ∨
      (find_direct_one a r).rtype = RefType.external := by
  unfold find_direct_one
  cases dictGet? a.nodes r with
  | some n => simp
  | none =>
    cases dictGet? a.circular_to_node r with
    | some nid => simp
    | none =>
      cases dictGet? a.reference_map r with
      | some s => simp
      | none =>
        by_cases hm : fuzzy_match_reference a r ≠ [] <;> simp [hm]

theorem foldl_dictInsert_keys (a : Analyzer) :
    ∀ (cands : List String) (acc : List (String × Details)),
      (acc.map (fun p => p.1) ++ cands).Nodup →
      ((cands.foldl
        (fun acc ref => dictInsert acc ref (find_direct_one a ref))
        acc).map (fun p => p.1)) = acc.map (fun p => p.1) ++ cands := by
  intro cands
  induction cands with
  | nil => intro acc _; simp
  | cons c cs ih =>
    intro acc h
    simp only [List.foldl_cons]
    have hc : c ∉ acc.map (fun p => p.1) := by
      intro hmem
      rcases List.nodup_append.mp h with ⟨_, _, hdisj⟩
      exact hdisj hmem (by simp)
    have hfresh : ∀ p ∈ acc, p.1 ≠ c := by
      intro p hp he
      exact hc (List.mem_map.mpr ⟨p, hp, he⟩)
    rw [dictInsert_of_fresh _ hfresh]
    have hn : ((acc ++ [(c, find_direct_one a c)]).map
        (fun p => p.1) ++ cs).Nodup := by
      simp only [List.map_append, List.map_cons, List.map_nil]
      rw [List.append_assoc]
      simpa using h
    rw [ih _ hn]
    simp

theorem foldl_dictInsert_mem (a : Analyzer) :
    ∀ (cands : List String) (acc : List (String × Details)),
      ∀ p ∈ cands.foldl
        (fun acc ref => dictInsert acc ref (find_direct_one a ref)) acc,
        p ∈ acc ∨ ∃ r, p = (r, find_direct_one a r) := by
  intro cands
  induction cands with
  | nil =>
    intro acc p hp
    exact Or.inl (by simpa using hp)
  | cons c cs ih =>
    intro acc p hp
    simp only [List.foldl_cons] at hp
    rcases ih _ p hp with h | h
    · rcases dictInsert_mem p h with h₁ | h₁
      · exact Or.inl h₁
      · exact Or.inr ⟨c, h₁⟩
    · exact Or.inr h

/-! ### Normalizer comparison -/

theorem fuzzyNormalize_eq_specNormalize (s : String)
    (h : ∀ c ∈ s.toList, c.isAlphanum = true ∨ c = ' ') :
    fuzzyNormalize s = specNormalize s := by
  have e : s.toList.filter (fun c => decide (c ≠ ' ')) =
      s.toList.filter (fun c => c.isAlphanum) := by
    refine List.filter_congr ?_
    intro c hc
    rcases h c hc with h₁ | h₁
    · have hcs : c ≠ ' ' := by
        intro he
        rw [he] at h₁
        exact absurd h₁ (by decide)
      simp [hcs, h₁]
    · subst h₁
      decide
  show String.mk
      ((s.toList.filter (fun c => decide (c ≠ ' '))).map Char.toUpper) =
    String.mk ((s.toList.filter (fun c => c.isAlphanum)).map Char.toUpper)
  rw [e]

/-! ### Concrete fixtures used by counterexamples and witnesses -/

/-- An analyzer over the empty graph. -/
def emptyAnalyzer : Analyzer := ⟨[], [], []⟩

/-- A resolved direct-reference entry for node `A` carrying one reference. -/
def detailsC1 : Details := ⟨.in_graph, some "A", ["B"], [], []⟩

/-- Graph with one node `P` whose only reference is `AB`. -/
def analyzerC5 : Analyzer := load_graph [⟨"P", "", ["AB"]⟩] [⟨"P", "AB"⟩]

/-- A direct entry whose references are `A B` (with a space) and `P`. -/
def detailsC5 : Details := ⟨.in_graph, some "D", ["A B", "P"], [], []⟩

/-- Two-node reference cycle: `X` cites `Y` and `Y` cites `X`. -/
def cycleAnalyzer : Analyzer :=
  load_graph [⟨"X", "", ["Y"]⟩, ⟨"Y", "", ["X"]⟩] [⟨"X", "Y"⟩, ⟨"Y", "X"⟩]

/-- Graph with one node whose stored circular number is
`SEBI HO ABC 2024 5` (spaces, no slashes). -/
def analyzerC3 : Analyzer :=
  load_graph [⟨"n1.pdf", "SEBI HO ABC 2024 5", []⟩] []

/-- A direct entry for node `C` carrying one reference. -/
def detailsC9 : Details := ⟨.in_graph, some "C", ["D"], [], []⟩

/-- Two builder documents with distinct ids. -/
def docsC6 : List (String × String × List String) :=
  [("f1", "c1", ["R", "S"]), ("f2", "c2", ["R"])]

/-- Graph with one node whose stored circular number is empty. -/
def analyzerC10 : Analyzer := load_graph [⟨"n", "", []⟩] []

/-! ### Claim C1 -/

/-- C1, counterexample: with `maxDepth = 1` and a direct-reference map whose
entry carries one reference, `find_indirect_references` returns the nonempty
map `{2: {"B"}}`, not an empty `LeveledReferenceSet` — the seeding phase
populates level 2 before the depth test is ever consulted. -/
theorem C1_counterexample :
    find_indirect_references emptyAnalyzer [("A", detailsC1)] 1 =
      [(2, ["B"])] ∧
    find_indirect_references emptyAnalyzer [("A", detailsC1)] 1 ≠ [] := by
  constructor
  · decide
  · decide

/-- C1, amended: for `maxDepth ≤ 2` (so in particular `maxDepth = 1`) the
engine raises no error and returns exactly the level-2 seed set — the
not-yet-visited references of the direct entries — and every level key of
the result is 2.  The result is empty only when no direct entry contributes
a seed, not unconditionally. -/
theorem C1_amended :
    ∀ (a : Analyzer) (direct : List (String × Details)) (d : Int), d ≤ 2 →
      find_indirect_references a direct d = (seedDirect direct).levels ∧
        ∀ l x, memLevel (find_indirect_references a direct d) l x → l = 2 := by
  intro a direct d hd
  have he := find_indirect_shallow a direct hd
  refine ⟨he, ?_⟩
  intro l x hx
  rw [he] at hx
  exact (seedDirect_inv direct).1 l x hx

/-- C1, witness: the amended theorem evaluated at the counterexample input. -/
theorem C1_witness :
    find_indirect_references emptyAnalyzer [("A", detailsC1)] 1 =
      (seedDirect [("A", detailsC1)]).levels :=
  (C1_amended emptyAnalyzer [("A", detailsC1)] 1 (by decide)).1

/-! ### Claim C2 -/

/-- C2, counterexample: the self-reference filter drops by raw containment,
not by normalized equality.  `AB/C` is dropped for self identifier `AB`
although their normalized forms differ (under both the code's and the spec's
normalizer), while `AB` survives for self identifier `A B` although the two
normalize identically. -/
theorem C2_counterexample :
    selfFilterRefs "AB" ["AB/C"] = [] ∧
    specNormalize "AB/C" ≠ specNormalize "AB" ∧
    fuzzyNormalize "AB/C" ≠ fuzzyNormalize "AB" ∧
    selfFilterRefs "A B" ["AB"] = ["AB"] ∧
    fuzzyNormalize "AB" = fuzzyNormalize "A B" ∧
    specNormalize "AB" = specNormalize "A B" := by
  refine ⟨by decide, by decide, by decide, by decide, by decide, by decide⟩

/-- C2, amended: a candidate is dropped iff `current_circ_short` — the self
identifier truncated at the first `(` and the first `-`, then stripped — is
nonempty and is a raw substring of the candidate or vice versa.  Normalized
equality is neither necessary nor sufficient for dropping. -/
theorem C2_amended :
    ∀ (circ : String) (refs : List String) (c : String), c ∈ refs →
      (c ∉ selfFilterRefs circ refs ↔
        (currentCircShort circ ≠ "" ∧
          (isSubstr (currentCircShort circ) c = true ∨
            isSubstr c (currentCircShort circ) = true))) := by
  intro circ refs c hc
  unfold selfFilterRefs
  rw [List.mem_filter]
  by_cases h1 : currentCircShort circ = "" <;>
    by_cases h2 : isSubstr (currentCircShort circ) c = true <;>
      by_cases h3 : isSubstr c (currentCircShort circ) = true <;>
        simp [h1, h2, h3, hc]

/-- C2, witness: the amended theorem evaluated at the counterexample input. -/
theorem C2_witness : "AB/C" ∉ selfFilterRefs "AB" ["AB/C"] :=
  (C2_amended "AB" ["AB/C"] "AB/C" (by decide)).mpr (by decide)

/-! ### Claim C3 -/

/-- C3, counterexample: candidate `SEBI/HO/ABC/2024/5` against a graph whose
only node stores canonical identifier `SEBI HO ABC 2024 5`.  The two
normalize identically under the spec's normalizer, yet the resolver
classifies the candidate as `external` (Unresolved): the alias index is
consulted with the raw candidate, and even the fuzzy step fails because its
space-only normalization does not erase the slashes. -/
theorem C3_counterexample :
    specNormalize "SEBI/HO/ABC/2024/5" = specNormalize "SEBI HO ABC 2024 5" ∧
    dictGet? analyzerC3.nodes "SEBI/HO/ABC/2024/5" = none ∧
    (find_direct_one analyzerC3 "SEBI/HO/ABC/2024/5").rtype =
      RefType.external ∧
    RefType.external ≠ RefType.in_graph := by
  refine ⟨by decide, by decide, by decide, by decide⟩

/-- C3, amended: for a candidate that does not verbatim equal a node id, the
resolver classifies it `in_graph` (the AliasNode case) iff the raw candidate
is a key of `circular_to_node`, i.e. iff it equals some node's stored
canonical identifier verbatim; candidates equal only after normalization are
not alias-resolved. -/
theorem C3_amended :
    ∀ (a : Analyzer) (ref : String), dictGet? a.nodes ref = none →
      ((find_direct_one a ref).rtype = RefType.in_graph ↔
        (dictGet? a.circular_to_node ref).isSome = true) := by
  intro a ref h
  unfold find_direct_one
  rw [h]
  cases hc : dictGet? a.circular_to_node ref with
  | some nid => simp
  | none =>
    cases hr : dictGet? a.reference_map ref with
    | some s => simp
    | none =>
      by_cases hm : fuzzy_match_reference a ref ≠ [] <;> simp [hm]

/-- C3, witness: the raw canonical identifier itself does alias-resolve. -/
theorem C3_witness :
    (find_direct_one analyzerC3 "SEBI HO ABC 2024 5").rtype =
      RefType.in_graph :=
  (C3_amended analyzerC3 "SEBI HO ABC 2024 5" (by decide)).mpr (by decide)

/-! ### Claim C4 -/

/-- C4, counterexample: the normalization the code uses for identifier
matching only strips spaces, so it differs from the claimed
remove-all-non-alphanumerics definition at `A/B`, and `A/B` and `AB` — the
same document under the claimed normalizer — are distinct to the code. -/
theorem C4_counterexample :
    fuzzyNormalize "A/B" ≠ specNormalize "A/B" ∧
    specNormalize "A/B" = specNormalize "AB" ∧
    fuzzyNormalize "A/B" ≠ fuzzyNormalize "AB" := by
  refine ⟨by decide, by decide, by decide⟩

/-- C4, amended: the code's normalization removes only space characters and
upper-cases; it agrees with the spec's remove-all-non-alphanumerics
definition exactly on strings whose characters are all alphanumeric or
spaces, so only spacing differences (not punctuation such as `/`) are
erased. -/
theorem C4_amended :
    ∀ s : String, (∀ c ∈ s.toList, c.isAlphanum = true ∨ c = ' ') →
      fuzzyNormalize s = specNormalize s :=
  fun s h => fuzzyNormalize_eq_specNormalize s h

/-- C4, witness: the amended theorem evaluated at `a b1`. -/
theorem C4_witness : fuzzyNormalize "a b1" = specNormalize "a b1" :=
  C4_amended "a b1" (by decide)

/-! ### Claim C5 -/

/-- C5, counterexample: the visited-set check uses raw strings, not
normalized forms.  `A B` (level 2) and `AB` (level 3) have the same
normalized form — under the code's normalizer and the spec's — yet appear at
two different levels of the result. -/
theorem C5_counterexample :
    find_indirect_references analyzerC5 [("D", detailsC5)] 5 =
      [(2, ["A B", "P"]), (3, ["AB"])] ∧
    memLevel (find_indirect_references analyzerC5 [("D", detailsC5)] 5)
      2 "A B" ∧
    memLevel (find_indirect_references analyzerC5 [("D", detailsC5)] 5)
      3 "AB" ∧
    fuzzyNormalize "A B" = fuzzyNormalize "AB" ∧
    specNormalize "A B" = specNormalize "AB" := by
  refine ⟨by decide, by decide, by decide, by decide, by decide⟩

/-- C5, amended: deduplication holds for raw identifiers (results are stored
raw): no raw identifier occurs at two different levels of the result, and a
direct-reference key can occur at no level other than 2 (it can reach
level 2 when a direct entry processed before it cites it).  Identifiers
equal only after normalization are not deduplicated. -/
theorem C5_amended :
    ∀ (a : Analyzer) (direct : List (String × Details)) (d : Int),
      (∀ l₁ l₂ x, memLevel (find_indirect_references a direct d) l₁ x →
        memLevel (find_indirect_references a direct d) l₂ x → l₁ = l₂) ∧
      (∀ p ∈ direct, ∀ l,
        memLevel (find_indirect_references a direct d) l p.1 → l = 2) :=
  fun a direct d => find_indirect_inv a direct d

/-- C5, witness: the amended theorem evaluated on the counterexample data. -/
theorem C5_witness : (2 : Nat) = 2 ∧ (3 : Nat) = 3 :=
  ⟨(C5_amended analyzerC5 [("D", detailsC5)] 5).1 2 2 "A B" (by decide)
      (by decide),
   (C5_amended analyzerC5 [("D", detailsC5)] 5).1 3 3 "AB" (by decide)
      (by decide)⟩

/-! ### Claim C6 -/

/-- C6, counterexample: re-adding document `f` does replace its node (the
surviving node carries `c2` and the single reference entry `R`), but the
edge from the earlier version is not removed: two edges with source `f` and
target `R` remain — one still carrying the stale circular number `c1` — so
the one-edge-per-entry invariant fails. -/
theorem C6_counterexample :
    ((build_graph [("f", "c1", ["R"]), ("f", "c2", ["R"])]).edges.filter
      (fun e => e.source == "f" && e.target_reference == "R")).length = 2 ∧
    (dictGet? (build_graph [("f", "c1", ["R"]), ("f", "c2", ["R"])]).nodes
      "f").map (fun n => n.references) = some ["R"] ∧
    (build_graph [("f", "c1", ["R"]), ("f", "c2", ["R"])]).edges.map
      (fun e => e.source_circular_no) = ["c1", "c2"] := by
  refine ⟨by decide, by decide, by decide⟩

/-- C6, amended: the one-edge-per-entry invariant holds for every sequence of
`add_circular` calls with pairwise distinct document ids: each stored node's
outgoing edges, in order, are exactly its reference list, and for every
target the number of (source, target) edges equals that target's
multiplicity in the reference list (so exactly one per entry of the
duplicate-free reference set).  Re-adding an existing id replaces the node
but appends fresh edges without deleting the stale ones. -/
theorem C6_amended :
    ∀ (docs : List (String × String × List String)),
      (docs.map (fun t => t.1)).Nodup →
      ∀ f n, dictGet? (build_graph docs).nodes f = some n →
        ((build_graph docs).edges.filter (fun e => e.source == f)).map
          (fun e => e.target_reference) = n.references ∧
        ∀ r, ((build_graph docs).edges.filter
          (fun e => e.source == f && e.target_reference == r)).length =
            n.references.count r := by
  intro docs hnod f n hfn
  have hEM := build_graph_edges_match docs hnod f n hfn
  exact ⟨hEM, fun r => edges_count_of_map_eq hEM r⟩

/-- C6, witness: the amended theorem evaluated on two distinct documents. -/
theorem C6_witness :
    ((build_graph docsC6).edges.filter (fun e => e.source == "f1")).map
      (fun e => e.target_reference) = ["R", "S"] :=
  (C6_amended docsC6 (by decide) "f1" ⟨"f1", "c1", ["R", "S"], 2⟩
    (by decide)).1

/-! ### Claim C7 -/

/-- C7: the traversal terminates on every finite graph — any fuel above
`bfsMeasure` drains the queue completely, so the loop always runs to
quiescence — and on the two-node cycle (`X` cites `Y`, `Y` cites `X`),
resolving `X`'s direct reference `Y` and expanding with `maxDepth = 5`
yields exactly `{2: {"X"}}`: `Y` recurs in no level and `X` occurs in
exactly one level, with no repetition beyond first discovery. -/
theorem C7_theorem :
    (∀ (a : Analyzer) (direct : List (String × Details)) (d : Int)
      (fuel : Nat), bfsMeasure a (seedDirect direct) < fuel →
        (bfsFuel a d fuel (seedDirect direct)).queue = []) ∧
    find_indirect_references cycleAnalyzer
      (find_direct_references cycleAnalyzer ["Y"]) 5 = [(2, ["X"])] ∧
    (find_indirect_references cycleAnalyzer
      (find_direct_references cycleAnalyzer ["Y"]) 5).all
        (fun p => !(p.2.contains "Y")) = true ∧
    (find_indirect_references cycleAnalyzer
      (find_direct_references cycleAnalyzer ["Y"]) 5).countP
        (fun p => p.2.contains "X") = 1 := by
  refine ⟨fun a direct d fuel h => bfsFuel_drains a d fuel _ h,
    by decide, by decide, by decide⟩

/-- C7, witness: the termination conjunct evaluated on the cycle scenario. -/
theorem C7_witness :
    (bfsFuel cycleAnalyzer 5
      (bfsMeasure cycleAnalyzer
        (seedDirect (find_direct_references cycleAnalyzer ["Y"])) + 1)
      (seedDirect (find_direct_references cycleAnalyzer ["Y"]))).queue
      = [] :=
  C7_theorem.1 cycleAnalyzer (find_direct_references cycleAnalyzer ["Y"]) 5 _
    (Nat.lt_succ_self _)

/-! ### Claim C8 -/

/-- C8: every candidate that survives the self-reference filter yields
exactly one entry of the resolver's output — the output keys, in order, are
exactly the surviving candidates, so none is omitted and none occurs
twice — and every entry's outcome is one of the four produced categories
(`in_graph` — covering the spec's ExactNode and AliasNode —
`referenced_external`, `fuzzy_match`, `external`/Unresolved). -/
theorem C8_theorem :
    ∀ (a : Analyzer) (circ : String) (rawRefs : List String),
      rawRefs.Nodup →
      (find_direct_references a (selfFilterRefs circ rawRefs)).map
        (fun p => p.1) = selfFilterRefs circ rawRefs ∧
      ∀ p ∈ find_direct_references a (selfFilterRefs circ rawRefs),
        p.2.rtype = RefType.in_graph ∨
        p.2.rtype = RefType.referenced_external ∨
        p.2.rtype = RefType.fuzzy_match ∨
        p.2.rtype = RefType.external := by
  intro a circ rawRefs hnod
  have hsurv : (selfFilterRefs circ rawRefs).Nodup := by
    unfold selfFilterRefs
    exact hnod.filter _
  constructor
  · have := foldl_dictInsert_keys a (selfFilterRefs circ rawRefs) []
      (by simpa using hsurv)
    simpa using this
  · intro p hp
    rcases foldl_dictInsert_mem a (selfFilterRefs circ rawRefs) [] p hp
      with h | ⟨r, hr⟩
    · simp at h
    · rw [hr]
      exact find_direct_one_rtype_cases a r

/-- C8, witness: the theorem evaluated on one dropped and one surviving
candidate against the empty graph. -/
theorem C8_witness :
    (find_direct_references emptyAnalyzer
      (selfFilterRefs "SELF" ["SELF", "Q"])).map (fun p => p.1) =
      selfFilterRefs "SELF" ["SELF", "Q"] :=
  (C8_theorem emptyAnalyzer "SELF" ["SELF", "Q"] (by decide)).1

/-! ### Claim C9 -/

/-- C9, counterexample: `maxDepth = 0` (< 1) is not rejected: the call
returns normally — there is no validation anywhere in
`find_indirect_references` — and even yields a nonempty partial result,
because the level-2 seeding runs before the depth test. -/
theorem C9_counterexample :
    find_indirect_references emptyAnalyzer [("C", detailsC9)] 0 =
      [(2, ["D"])] ∧
    find_indirect_references emptyAnalyzer [("C", detailsC9)] 0 ≠ [] := by
  refine ⟨by decide, by decide⟩

/-- C9, amended: a call with `maxDepth < 1` is silently accepted and returns
the level-2 seed set (every dequeued item's level 2 already meets the bound,
so nothing deeper is computed) — a partial result rather than an error. -/
theorem C9_amended :
    ∀ (a : Analyzer) (direct : List (String × Details)) (d : Int), d < 1 →
      find_indirect_references a direct d = (seedDirect direct).levels := by
  intro a direct d hd
  exact find_indirect_shallow a direct (by omega)

/-- C9, witness: the amended theorem evaluated at `maxDepth = 0`. -/
theorem C9_witness :
    find_indirect_references emptyAnalyzer [("C", detailsC9)] 0 =
      (seedDirect [("C", detailsC9)]).levels :=
  C9_amended emptyAnalyzer [("C", detailsC9)] 0 (by decide)

/-! ### Claim C10 -/

/-- C10: in the fuzzy-match step, a node whose stored circular number
normalizes to the empty string (absent numbers are read as `""`) matches
every candidate, and a candidate normalizing to the empty string matches
every node, because the empty normalized string is a substring of
everything. -/
theorem C10_theorem :
    ∀ (a : Analyzer) (ref : String) (p : String × GNode), p ∈ a.nodes →
      (fuzzyNormalize p.2.circular_no = "" ∨ fuzzyNormalize ref = "") →
      p.1 ∈ fuzzy_match_reference a ref := by
  intro a ref p hp h
  unfold fuzzy_match_reference
  refine List.mem_map.mpr ⟨p, List.mem_filter.mpr ⟨hp, ?_⟩, rfl⟩
  show (isSubstr (fuzzyNormalize ref) (fuzzyNormalize p.2.circular_no) ||
    isSubstr (fuzzyNormalize p.2.circular_no) (fuzzyNormalize ref)) = true
  rw [Bool.or_eq_true]
  rcases h with h | h
  · right
    rw [h]
    exact decide_eq_true List.nil_infix
  · left
    rw [h]
    exact decide_eq_true List.nil_infix

/-- C10, witness: the node with empty circular number matches an arbitrary
candidate. -/
theorem C10_witness : "n" ∈ fuzzy_match_reference analyzerC10 "ANYTHING" :=
  C10_theorem analyzerC10 "ANYTHING" ("n", ⟨"n", "", []⟩) (by decide)
    (Or.inl (by decide))

end SEBI
